import Mathlib

/-!
Verification of the tree-contraction and flat-naming engine of
`sphinx_gherkindoc` (files `utils.py` and `cli.py`).

The shallow embedding below translates the relevant Python code:

* `make_flat_name` (utils.py, lines 101-125) becomes `make_flat_name`;
  Python's `".".join(path_list)` is embedded as the recursive `joinDot`.
* `process_args` (cli.py, lines 20-95) becomes `engineLoop` / `runEngine`
  (the `while work_to_do` loop, with `work_to_do.pop()` popping from the
  end of the list, so `runEngine` reverses its input before folding),
  `processFiles` (the per-file loop, lines 62-78) and `glossaryStep`
  (lines 80-95).  Persisted artifacts are recorded as `WriteEvent`s
  instead of touching a filesystem; the Python `set` `non_empty_dirs`
  is modelled as a `List String` whose membership is the set membership.
* `is_feature_file`, `is_rst_file` (module `.files`), the TOC builder
  and the glossary builder are external collaborators; they enter the
  model as the function fields of `Config` and as the `glossary`
  argument of `process_args`.
-/

/-- One unit of work produced by the scanner: the tuple
`(a_dir, a_dir_list, subdirs, files)` popped in `cli.py` line 35. -/
structure WorkUnit where
  dir : String
  dirList : List String
  subdirs : List String
  files : List String
deriving DecidableEq

/-- The configuration derived from the CLI arguments that the engine
reads, plus the two externally supplied file classifiers. -/
structure Config where
  outputPath : String
  tocName : String
  stepGlossaryName : Option String
  rootPath : String
  verboseFlag : Bool
  isFeatureFile : String → Bool
  isRstFile : String → Bool

/-- Embedding of `os.path.join(a, b)` for a relative second component. -/
def pathJoin (a b : String) : String := a ++ "/" ++ b

/-- Embedding of `os.path.join(*segments)` for a list of segments. -/
def joinPathList : List String → String
  | [] => ""
  | [s] => s
  | s :: rest => s ++ "/" ++ joinPathList rest

/-- Embedding of `".".join(path_list)` (Python string join). -/
def joinDot : List String → String
  | [] => ""
  | [s] => s
  | s :: rest => s ++ "." ++ joinDot rest

/-- Embedding of `make_flat_name` (utils.py lines 101-125). -/
def make_flat_name (path_list : List String) (filename_root : Option String)
    (is_dir : Bool) (ext : Option String) : String :=
  let path_list' :=
    match filename_root with
    | none => path_list
    | some root => path_list ++ [root]
  let result := joinDot path_list'
  match ext with
  | none => result
  | some e => result ++ (if is_dir then "-toc" else "-file") ++ e

/-- Embedding of `top_level_toc_filename` (cli.py line 30). -/
def topLevelTocFilename (cfg : Config) : String :=
  pathJoin cfg.outputPath cfg.tocName ++ ".rst"

/-- Equation lemma: `joinDot` on a list of length at least two. -/
theorem joinDot_cons_cons (s a : String) (t : List String) :
    joinDot (s :: a :: t) = s ++ "." ++ joinDot (a :: t) := rfl

/-- Data of the separator string. -/
theorem dot_data : ("." : String).data = ['.'] := rfl

/-- Splitting a character list at a separator character that occurs in
neither prefix is unambiguous. -/
theorem dot_split_inj : ∀ (a b x y : List Char), '.' ∉ a → '.' ∉ b →
    a ++ '.' :: x = b ++ '.' :: y → a = b ∧ x = y := by
  intro a
  induction a with
  | nil =>
    intro b x y _ hb h
    cases b with
    | nil =>
      simp only [List.nil_append, List.cons.injEq] at h
      exact ⟨rfl, h.2⟩
    | cons c b' =>
      simp only [List.nil_append, List.cons_append, List.cons.injEq] at h
      exact absurd (h.1 ▸ List.mem_cons_self c b') hb
  | cons c a' ih =>
    intro b x y ha hb h
    cases b with
    | nil =>
      simp only [List.cons_append, List.nil_append, List.cons.injEq] at h
      exact absurd (h.1 ▸ List.mem_cons_self c a') (h.1 ▸ ha)
    | cons d b' =>
      simp only [List.cons_append, List.cons.injEq] at h
      have ha' : '.' ∉ a' := fun hm => ha (List.mem_cons_of_mem c hm)
      have hb' : '.' ∉ b' := fun hm => hb (List.mem_cons_of_mem d hm)
      obtain ⟨h1, h2⟩ := ih b' x y ha' hb' h.2
      exact ⟨by rw [h.1, h1], h2⟩

/-- Character-list form of `joinDot` on a cons. -/
theorem joinDot_data_cons (a : String) (p : List String) (hne : p ≠ []) :
    (joinDot (a :: p)).data = a.data ++ '.' :: (joinDot p).data := by
  cases p with
  | nil => exact absurd rfl hne
  | cons b t =>
    rw [joinDot_cons_cons]
    simp [String.data_append, dot_data]

/-- The separator character occurs in a join with a non-trivial tail. -/
theorem dot_mem_joinDot_data (a : String) (p : List String) (hne : p ≠ []) :
    '.' ∈ (joinDot (a :: p)).data := by
  rw [joinDot_data_cons a p hne]
  exact List.mem_append_right _ (List.mem_cons_self _ _)

/-- Injectivity of `joinDot` on non-empty lists of separator-free
segments: the flat namer's cross-level collision freedom. -/
theorem joinDot_inj : ∀ (p q : List String), p ≠ [] → q ≠ [] →
    (∀ s ∈ p, '.' ∉ s.data) → (∀ s ∈ q, '.' ∉ s.data) →
    joinDot p = joinDot q → p = q := by
  intro p
  induction p with
  | nil => intro q hp _ _ _ _; exact absurd rfl hp
  | cons a p' ih =>
    intro q _ hq hpd hqd h
    cases q with
    | nil => exact absurd rfl hq
    | cons b q' =>
      cases p' with
      | nil =>
        cases q' with
        | nil =>
          have : a = b := by simpa [joinDot] using h
          rw [this]
        | cons b₂ q'' =>
          exfalso
          have hmem : '.' ∈ a.data := by
            rw [show joinDot [a] = a from rfl] at h
            rw [h]
            exact dot_mem_joinDot_data b (b₂ :: q'') (by simp)
          exact hpd a (List.mem_cons_self a []) hmem
      | cons a₂ p'' =>
        cases q' with
        | nil =>
          exfalso
          have hmem : '.' ∈ b.data := by
            rw [show joinDot [b] = b from rfl] at h
            rw [← h]
            exact dot_mem_joinDot_data a (a₂ :: p'') (by simp)
          exact hqd b (List.mem_cons_self b []) hmem
        | cons b₂ q'' =>
          have hd := congrArg String.data h
          rw [joinDot_data_cons a (a₂ :: p'') (by simp),
            joinDot_data_cons b (b₂ :: q'') (by simp)] at hd
          have hadot : '.' ∉ a.data := hpd a (List.mem_cons_self a _)
          have hbdot : '.' ∉ b.data := hqd b (List.mem_cons_self b _)
          obtain ⟨h1, h2⟩ := dot_split_inj a.data b.data _ _ hadot hbdot hd
          have hab : a = b := String.ext h1
          have htail : joinDot (a₂ :: p'') = joinDot (b₂ :: q'') :=
            String.ext h2
          have : a₂ :: p'' = b₂ :: q'' := by
            refine ih (b₂ :: q'') (by simp) (by simp) ?_ ?_ htail
            · intro s hs; exact hpd s (List.mem_cons_of_mem a hs)
            · intro s hs; exact hqd s (List.mem_cons_of_mem b hs)
          rw [hab, this]

/-- Data of the container discriminator. -/
theorem toc_data : ("-toc" : String).data = ['-', 't', 'o', 'c'] := rfl

/-- Data of the leaf discriminator. -/
theorem file_data : ("-file" : String).data = ['-', 'f', 'i', 'l', 'e'] := rfl

/-- A list cannot end in both discriminators at once. -/
theorem toc_ne_file_suffix (x y : List Char) :
    x ++ ['-', 't', 'o', 'c'] ≠ y ++ ['-', 'f', 'i', 'l', 'e'] := by
  intro h
  have hrev := congrArg List.reverse h
  rw [List.reverse_append, List.reverse_append] at hrev
  rw [show (['-', 't', 'o', 'c'] : List Char).reverse = ['c', 'o', 't', '-']
    from rfl] at hrev
  rw [show (['-', 'f', 'i', 'l', 'e'] : List Char).reverse
    = ['e', 'l', 'i', 'f', '-'] from rfl] at hrev
  simp only [List.cons_append, List.nil_append, List.cons.injEq] at hrev
  exact absurd hrev.1 (by decide)

/-- Character-list tail used to relate `joinDot` with `String.intercalate`. -/
def dotTailData : List (List Char) → List Char
  | [] => []
  | a :: t => '.' :: (a ++ dotTailData t)

/-- Unfolding of the accumulator loop of `String.intercalate`. -/
theorem intercalate_go_data (as : List String) (acc : String) :
    (String.intercalate.go acc "." as).data
      = acc.data ++ dotTailData (as.map String.data) := by
  induction as generalizing acc with
  | nil => simp [String.intercalate.go, dotTailData]
  | cons a t ih =>
    rw [show String.intercalate.go acc "." (a :: t)
      = String.intercalate.go (acc ++ "." ++ a) "." t from rfl, ih]
    simp [dotTailData, String.data_append, dot_data]

/-- Character-list form of `joinDot` via `dotTailData`. -/
theorem joinDot_data_eq_dotTail (a : String) (t : List String) :
    (joinDot (a :: t)).data = a.data ++ dotTailData (t.map String.data) := by
  induction t generalizing a with
  | nil => simp [joinDot, dotTailData]
  | cons b t' ih =>
    rw [joinDot_cons_cons]
    simp [String.data_append, dot_data, dotTailData, ih b]

/-- The embedded Python join agrees with the library join. -/
theorem joinDot_eq_intercalate (l : List String) :
    joinDot l = String.intercalate "." l := by
  cases l with
  | nil => rfl
  | cons a t =>
    apply String.ext
    rw [joinDot_data_eq_dotTail,
      show String.intercalate "." (a :: t) = String.intercalate.go a "." t
        from rfl, intercalate_go_data]

/-- Character-list form of `make_flat_name` with the container marker. -/
theorem make_flat_name_toc_data (p : List String) (e : String) :
    (make_flat_name p none true (some e)).data
      = ((joinDot p).data ++ ['-', 't', 'o', 'c']) ++ e.data := by
  show ((joinDot p ++ "-toc") ++ e).data = _
  rw [String.data_append, String.data_append, toc_data]

/-- Character-list form of `make_flat_name` with the leaf marker. -/
theorem make_flat_name_file_data (p : List String) (e : String) :
    (make_flat_name p none false (some e)).data
      = ((joinDot p).data ++ ['-', 'f', 'i', 'l', 'e']) ++ e.data := by
  show ((joinDot p ++ "-file") ++ e).data = _
  rw [String.data_append, String.data_append, file_data]

/-- C1 (counterexample): the claim includes the extension-None case, but
with `ext = None` the code returns only the joined segments and drops
the discriminator, so the distinct inputs `(["a"], is_dir := true)` and
`(["a"], is_dir := false)` — which satisfy the stated input constraint —
produce the same output string. -/
theorem make_flat_name_discriminator_collision_ext_none :
    '.' ∉ ("a" : String).data
    ∧ ((["a"], true) : List String × Bool) ≠ ((["a"], false) : List String × Bool)
    ∧ make_flat_name ["a"] none true none = make_flat_name ["a"] none false none := by
  decide

/-- C1 (amended): for every pair of distinct `(path_segments, discriminator)`
inputs satisfying the input constraint (non-empty, no segment containing
the separator), `make_flat_name` produces distinct output strings for every
choice of a present (non-None) extension argument. -/
theorem make_flat_name_collision_free_some_ext (p q : List String)
    (d₁ d₂ : Bool) (ext : String) (hp : p ≠ []) (hq : q ≠ [])
    (hpd : ∀ s ∈ p, '.' ∉ s.data) (hqd : ∀ s ∈ q, '.' ∉ s.data)
    (hne : (p, d₁) ≠ (q, d₂)) :
    make_flat_name p none d₁ (some ext) ≠ make_flat_name q none d₂ (some ext) := by
  intro h
  have hd := congrArg String.data h
  cases d₁ <;> cases d₂
  · rw [make_flat_name_file_data, make_flat_name_file_data] at hd
    have h1 := List.append_cancel_right hd
    have h2 := List.append_cancel_right h1
    exact hne (by rw [joinDot_inj p q hp hq hpd hqd (String.ext h2)])
  · rw [make_flat_name_file_data, make_flat_name_toc_data] at hd
    exact toc_ne_file_suffix _ _ (List.append_cancel_right hd).symm
  · rw [make_flat_name_toc_data, make_flat_name_file_data] at hd
    exact toc_ne_file_suffix _ _ (List.append_cancel_right hd)
  · rw [make_flat_name_toc_data, make_flat_name_toc_data] at hd
    have h1 := List.append_cancel_right hd
    have h2 := List.append_cancel_right h1
    exact hne (by rw [joinDot_inj p q hp hq hpd hqd (String.ext h2)])

/-- Witness for the amended C1 at a concrete input. -/
theorem make_flat_name_collision_free_some_ext_witness :
    make_flat_name ["a"] none true (some ".rst")
      ≠ make_flat_name ["a"] none false (some ".rst") :=
  make_flat_name_collision_free_some_ext ["a"] ["a"] true false ".rst"
    (by decide) (by decide) (by decide) (by decide) (by decide)

/-- C4: for every non-empty segment list and every extension string,
`make_flat_name` returns the segments joined by the separator, then the
discriminator `-toc` (container) or `-file` (leaf), then the extension;
in particular the default-extension container name for `["a", "b"]` is
`"a.b-toc.rst"`. -/
theorem make_flat_name_bit_exact_format :
    (∀ (p : List String) (d : Bool) (ext : String), p ≠ [] →
      make_flat_name p none d (some ext)
        = String.intercalate "." p ++ (if d then "-toc" else "-file") ++ ext)
    ∧ make_flat_name ["a", "b"] none true (some ".rst") = "a.b-toc.rst" := by
  constructor
  · intro p d ext _
    rw [← joinDot_eq_intercalate]
    rfl
  · decide

/-- Witness for C4 at a concrete input. -/
theorem make_flat_name_bit_exact_format_witness :
    make_flat_name ["a"] none false (some ".rst")
      = String.intercalate "." ["a"] ++ (if false then "-toc" else "-file") ++ ".rst" :=
  make_flat_name_bit_exact_format.1 ["a"] false ".rst" (by decide)

/-- C10: when the extension argument is None, `make_flat_name` ignores
the `is_dir` discriminator entirely and returns only the segments joined
by the separator. -/
theorem make_flat_name_ext_none_ignores_is_dir (p : List String) :
    make_flat_name p none true none = make_flat_name p none false none
    ∧ make_flat_name p none true none = String.intercalate "." p := by
  refine ⟨rfl, ?_⟩
  show joinDot p = _
  exact joinDot_eq_intercalate p

/-- One persisted artifact of a run: a TOC document, a converted feature
file, a verbatim copy, or the glossary file. -/
inductive WriteEvent where
  | toc (filename : String)
  | feature (sourcePath : String) (destName : String)
  | copy (sourcePath : String) (destName : String)
  | glossary (filename : String)
deriving DecidableEq

/-- True exactly on glossary write events. -/
def WriteEvent.isGlossary : WriteEvent → Bool
  | .glossary _ => true
  | _ => false

/-- Embedding of the subdirectory filtering of `process_args`
(cli.py lines 36-40): keep a subdirectory when its joined path is
already in `non_empty_dirs`. -/
def filteredSubdirs (u : WorkUnit) (nonEmptyDirs : List String) : List String :=
  u.subdirs.filter (fun subdir => nonEmptyDirs.contains (pathJoin u.dir subdir))

/-- Embedding of the retention test of cli.py line 42: the unit is kept
when `files or new_subdirs` is truthy, i.e. not both lists are empty. -/
def retainUnit (u : WorkUnit) (nonEmptyDirs : List String) : Bool :=
  !(u.files.isEmpty && (filteredSubdirs u nonEmptyDirs).isEmpty)

/-- Embedding of one iteration of the per-file loop of `process_args`
(cli.py lines 62-78): a feature file is converted to a flat-named reST
file, a non-reST non-feature file is copied verbatim under a flat name
with no added extension, and a reST file produces no individual
artifact. -/
def processOneFile (cfg : Config) (aDirList : List String)
    (aFile : String) : Option WriteEvent :=
  let aFileList := aDirList ++ [aFile]
  let sourcePath := pathJoin cfg.rootPath (joinPathList aFileList)
  if cfg.isFeatureFile aFile then
    some (WriteEvent.feature sourcePath
      (pathJoin cfg.outputPath (make_flat_name aFileList none false (some ".rst"))))
  else if cfg.isRstFile aFile then none
  else
    some (WriteEvent.copy sourcePath
      (pathJoin cfg.outputPath (make_flat_name aFileList none false none)))

/-- Embedding of the whole per-file loop of cli.py lines 62-78. -/
def processFiles (cfg : Config) (aDirList : List String)
    (files : List String) : List WriteEvent :=
  files.filterMap (processOneFile cfg aDirList)

/-- Result of the engine loop: the final `non_empty_dirs`, the persisted
artifacts in order, and the units in the order they were popped. -/
structure RunResult where
  nonEmptyDirs : List String
  writes : List WriteEvent
  trace : List WorkUnit

/-- Embedding of the `while work_to_do` loop of `process_args` (cli.py
lines 34-78), processing units in the order of the given list (the pop
order).  The first branch is the pruning `continue` of line 42, the
second the dry-run `continue` of line 47, and the third builds and
persists the TOC (top-level name exactly when the popped unit was the
last one) and then runs the per-file loop. -/
def engineLoop (cfg : Config) (dryRun : Bool) :
    List WorkUnit → List String → RunResult
  | [], nonEmptyDirs => ⟨nonEmptyDirs, [], []⟩
  | u :: workToDo, nonEmptyDirs =>
    if retainUnit u nonEmptyDirs then
      let updated := u.dir :: nonEmptyDirs
      if dryRun then
        let r := engineLoop cfg dryRun workToDo updated
        ⟨r.nonEmptyDirs, r.writes, u :: r.trace⟩
      else
        let tocFilename :=
          if workToDo.isEmpty then topLevelTocFilename cfg
          else pathJoin cfg.outputPath (make_flat_name u.dirList none true (some ".rst"))
        let r := engineLoop cfg dryRun workToDo updated
        ⟨r.nonEmptyDirs,
          WriteEvent.toc tocFilename :: (processFiles cfg u.dirList u.files ++ r.writes),
          u :: r.trace⟩
    else
      let r := engineLoop cfg dryRun workToDo nonEmptyDirs
      ⟨r.nonEmptyDirs, r.writes, u :: r.trace⟩

/-- The engine run over a scanner-produced work list: `work_to_do.pop()`
pops from the end of the Python list, so the processing order is the
reverse of the list, starting from an empty `non_empty_dirs`. -/
def runEngine (cfg : Config) (dryRun : Bool) (workToDo : List WorkUnit) : RunResult :=
  engineLoop cfg dryRun workToDo.reverse []

/-- Embedding of `utils.verbose`: a message is printed only when the
verbose flag is set, with a dry-run marker prepended as appropriate. -/
def verboseMsgs (verboseFlag dryRun : Bool) (message : String) : List String :=
  if verboseFlag then
    [if dryRun then "dry-run: " ++ message else message]
  else []

/-- Embedding of the glossary step of `process_args` (cli.py lines
80-95), with the external `make_steps_glossary` result supplied as the
`glossary` argument.  Returns the write events and printed messages. -/
def glossaryStep (cfg : Config) (dryRun : Bool) (glossary : Option String) :
    List WriteEvent × List String :=
  match cfg.stepGlossaryName with
  | none => ([], [])
  | some name =>
    if name = "" then ([], [])
    else
      let glossaryFilename := pathJoin cfg.outputPath (name ++ ".rst")
      if dryRun then ([], verboseMsgs cfg.verboseFlag dryRun "No glossary generated")
      else
        match glossary with
        | none => ([], ["No steps to include in the glossary: no glossary generated"])
        | some _ =>
          ([WriteEvent.glossary glossaryFilename],
            verboseMsgs cfg.verboseFlag dryRun
              ("Writing sphinx glossary: " ++ glossaryFilename))

/-- Whole-run result: engine artifacts then the glossary artifact. -/
structure ProcessResult where
  nonEmptyDirs : List String
  writes : List WriteEvent
  messages : List String
  trace : List WorkUnit

/-- Embedding of `process_args` (cli.py lines 20-95): the engine loop
followed by the glossary step. -/
def process_args (cfg : Config) (dryRun : Bool) (workToDo : List WorkUnit)
    (glossary : Option String) : ProcessResult :=
  let r := runEngine cfg dryRun workToDo
  let g := glossaryStep cfg dryRun glossary
  ⟨r.nonEmptyDirs, r.writes ++ g.1, g.2, r.trace⟩

/-- The `non_empty_dirs` update performed for one popped unit. -/
def stepDirs (u : WorkUnit) (s : List String) : List String :=
  if retainUnit u s then u.dir :: s else s

/-- The `non_empty_dirs` contents after processing a list of units. -/
def dirsAfter : List WorkUnit → List String → List String
  | [], s => s
  | u :: t, s => dirsAfter t (stepDirs u s)

/-- The engine's final `non_empty_dirs` is the fold of `stepDirs`,
independently of the dry-run flag and of any write activity. -/
theorem engineLoop_nonEmptyDirs (cfg : Config) (dryRun : Bool) :
    ∀ (l : List WorkUnit) (s : List String),
      (engineLoop cfg dryRun l s).nonEmptyDirs = dirsAfter l s := by
  intro l
  induction l with
  | nil => intro s; rfl
  | cons u t ih =>
    intro s
    by_cases hr : retainUnit u s = true
    · cases dryRun <;>
        simp [engineLoop, hr, dirsAfter, stepDirs, ih]
    · simp only [Bool.not_eq_true] at hr
      simp [engineLoop, hr, dirsAfter, stepDirs, ih]

/-- The engine pops every unit in list order. -/
theorem engineLoop_trace (cfg : Config) (dryRun : Bool) :
    ∀ (l : List WorkUnit) (s : List String),
      (engineLoop cfg dryRun l s).trace = l := by
  intro l
  induction l with
  | nil => intro s; rfl
  | cons u t ih =>
    intro s
    by_cases hr : retainUnit u s = true
    · cases dryRun <;> simp [engineLoop, hr, ih]
    · simp only [Bool.not_eq_true] at hr
      simp [engineLoop, hr, ih]

/-- A dry run produces no write events at all in the engine loop. -/
theorem engineLoop_dry_writes (cfg : Config) :
    ∀ (l : List WorkUnit) (s : List String),
      (engineLoop cfg true l s).writes = [] := by
  intro l
  induction l with
  | nil => intro s; rfl
  | cons u t ih =>
    intro s
    by_cases hr : retainUnit u s = true
    · simp [engineLoop, hr, ih]
    · simp only [Bool.not_eq_true] at hr
      simp [engineLoop, hr, ih]

/-- Unfolding lemma: writes of a retained unit in a non-dry run. -/
theorem engineLoop_cons_retained_writes (cfg : Config) (u : WorkUnit)
    (t : List WorkUnit) (s : List String) (h : retainUnit u s = true) :
    (engineLoop cfg false (u :: t) s).writes
      = WriteEvent.toc (if t.isEmpty then topLevelTocFilename cfg
          else pathJoin cfg.outputPath (make_flat_name u.dirList none true (some ".rst")))
        :: (processFiles cfg u.dirList u.files
            ++ (engineLoop cfg false t (u.dir :: s)).writes) := by
  simp [engineLoop, h]

/-- Unfolding lemma: writes of a retained unit in a dry run. -/
theorem engineLoop_cons_dry_writes (cfg : Config) (u : WorkUnit)
    (t : List WorkUnit) (s : List String) (h : retainUnit u s = true) :
    (engineLoop cfg true (u :: t) s).writes
      = (engineLoop cfg true t (u.dir :: s)).writes := by
  simp [engineLoop, h]

/-- Unfolding lemma: writes of a pruned unit. -/
theorem engineLoop_cons_skipped_writes (cfg : Config) (dryRun : Bool)
    (u : WorkUnit) (t : List WorkUnit) (s : List String)
    (h : retainUnit u s = false) :
    (engineLoop cfg dryRun (u :: t) s).writes
      = (engineLoop cfg dryRun t s).writes := by
  simp [engineLoop, h]

/-- Unfolding lemma: the `non_empty_dirs` step for a retained unit. -/
theorem stepDirs_retained (u : WorkUnit) (s : List String)
    (h : retainUnit u s = true) : stepDirs u s = u.dir :: s := by
  simp [stepDirs, h]

/-- Unfolding lemma: the `non_empty_dirs` step for a pruned unit. -/
theorem stepDirs_skipped (u : WorkUnit) (s : List String)
    (h : retainUnit u s = false) : stepDirs u s = s := by
  simp [stepDirs, h]

/-- Membership in the `non_empty_dirs` update of one unit. -/
theorem mem_stepDirs (d : String) (u : WorkUnit) (s : List String) :
    d ∈ stepDirs u s ↔ (retainUnit u s = true ∧ d = u.dir) ∨ d ∈ s := by
  by_cases h : retainUnit u s = true
  · rw [stepDirs_retained u s h]
    simp [h]
  · rw [Bool.not_eq_true] at h
    rw [stepDirs_skipped u s h]
    simp [h]

/-- Membership in `non_empty_dirs` is preserved by further processing. -/
theorem mem_dirsAfter_of_mem (d : String) :
    ∀ (l : List WorkUnit) (s : List String), d ∈ s → d ∈ dirsAfter l s := by
  intro l
  induction l with
  | nil => intro s h; exact h
  | cons u t ih =>
    intro s h
    exact ih _ ((mem_stepDirs d u s).mpr (Or.inr h))

/-- Processing a concatenation processes the parts in order. -/
theorem dirsAfter_append :
    ∀ (l₁ l₂ : List WorkUnit) (s : List String),
      dirsAfter (l₁ ++ l₂) s = dirsAfter l₂ (dirsAfter l₁ s) := by
  intro l₁
  induction l₁ with
  | nil => intro l₂ s; rfl
  | cons u t ih => intro l₂ s; exact ih l₂ (stepDirs u s)

/-- Characterization of membership in `non_empty_dirs` after a run: a
path is a member exactly when some already-processed unit carries it and
was retained against the `non_empty_dirs` contents of its own time. -/
theorem mem_dirsAfter_iff (d : String) :
    ∀ (l : List WorkUnit) (s : List String),
      d ∈ dirsAfter l s ↔ d ∈ s ∨ ∃ l₁ u l₂, l = l₁ ++ u :: l₂
        ∧ u.dir = d ∧ retainUnit u (dirsAfter l₁ s) = true := by
  intro l
  induction l with
  | nil =>
    intro s
    constructor
    · intro h; exact Or.inl h
    · rintro (h | ⟨l₁, u, l₂, heq, -, -⟩)
      · exact h
      · exact absurd heq (by simp)
  | cons u₀ t ih =>
    intro s
    rw [show dirsAfter (u₀ :: t) s = dirsAfter t (stepDirs u₀ s) from rfl, ih]
    constructor
    · rintro (h | ⟨l₁, u, l₂, heq, hd, hr⟩)
      · rcases (mem_stepDirs d u₀ s).mp h with ⟨hru, hdu⟩ | hs
        · exact Or.inr ⟨[], u₀, t, rfl, hdu.symm, hru⟩
        · exact Or.inl hs
      · exact Or.inr ⟨u₀ :: l₁, u, l₂, by rw [heq, List.cons_append], hd, hr⟩
    · rintro (h | ⟨l₁, u, l₂, heq, hd, hr⟩)
      · exact Or.inl ((mem_stepDirs d u₀ s).mpr (Or.inr h))
      · cases l₁ with
        | nil =>
          simp only [List.nil_append, List.cons.injEq] at heq
          refine Or.inl ((mem_stepDirs d u₀ s).mpr (Or.inl ⟨?_, ?_⟩))
          · rw [heq.1]; exact hr
          · rw [heq.1]; exact hd.symm
        | cons v l₁' =>
          simp only [List.cons_append, List.cons.injEq] at heq
          refine Or.inr ⟨l₁', u, l₂, heq.2, hd, ?_⟩
          rw [show dirsAfter (v :: l₁') s = dirsAfter l₁' (stepDirs v s) from rfl,
            ← heq.1] at hr
          exact hr

/-- When the last-processed unit is retained in a non-dry run, its TOC
is persisted under the configured top-level TOC name. -/
theorem engineLoop_last_toc (cfg : Config) :
    ∀ (l : List WorkUnit) (u : WorkUnit) (s : List String),
      retainUnit u (dirsAfter l s) = true →
      WriteEvent.toc (topLevelTocFilename cfg)
        ∈ (engineLoop cfg false (l ++ [u]) s).writes := by
  intro l
  induction l with
  | nil =>
    intro u s h
    rw [List.nil_append,
      engineLoop_cons_retained_writes cfg u [] s h]
    simp
  | cons v t ih =>
    intro u s h
    rw [show dirsAfter (v :: t) s = dirsAfter t (stepDirs v s) from rfl] at h
    rw [List.cons_append]
    by_cases hv : retainUnit v s = true
    · rw [stepDirs_retained v s hv] at h
      rw [engineLoop_cons_retained_writes cfg v (t ++ [u]) s hv]
      exact List.mem_cons_of_mem _
        (List.mem_append_right _ (ih u (v.dir :: s) h))
    · rw [Bool.not_eq_true] at hv
      rw [stepDirs_skipped v s hv] at h
      rw [engineLoop_cons_skipped_writes cfg false v (t ++ [u]) s hv]
      exact ih u s h

/-- The glossary step writes nothing in a dry run. -/
theorem glossaryStep_dry_writes (cfg : Config) (g : Option String) :
    (glossaryStep cfg true g).1 = [] := by
  unfold glossaryStep
  cases cfg.stepGlossaryName with
  | none => rfl
  | some name => by_cases h : name = "" <;> simp [h]

/-- Unfolding lemma: the writes of a whole run. -/
theorem process_args_writes (cfg : Config) (dryRun : Bool)
    (w : List WorkUnit) (g : Option String) :
    (process_args cfg dryRun w g).writes
      = (runEngine cfg dryRun w).writes ++ (glossaryStep cfg dryRun g).1 := rfl

/-- Unfolding lemma: the messages of a whole run. -/
theorem process_args_messages (cfg : Config) (dryRun : Bool)
    (w : List WorkUnit) (g : Option String) :
    (process_args cfg dryRun w g).messages = (glossaryStep cfg dryRun g).2 := rfl

/-- Unfolding lemma: the `non_empty_dirs` of a whole run. -/
theorem process_args_nonEmptyDirs (cfg : Config) (dryRun : Bool)
    (w : List WorkUnit) (g : Option String) :
    (process_args cfg dryRun w g).nonEmptyDirs
      = (runEngine cfg dryRun w).nonEmptyDirs := rfl

/-- Dispatch of one file when it is a feature file. -/
theorem processOneFile_feature (cfg : Config) (aDirList : List String)
    (f : String) (h : cfg.isFeatureFile f = true) :
    processOneFile cfg aDirList f
      = some (WriteEvent.feature
          (pathJoin cfg.rootPath (joinPathList (aDirList ++ [f])))
          (pathJoin cfg.outputPath
            (make_flat_name (aDirList ++ [f]) none false (some ".rst")))) := by
  simp [processOneFile, h]

/-- Dispatch of one file when it is a reST (and not feature) file. -/
theorem processOneFile_rst (cfg : Config) (aDirList : List String)
    (f : String) (h1 : cfg.isFeatureFile f = false)
    (h2 : cfg.isRstFile f = true) :
    processOneFile cfg aDirList f = none := by
  simp [processOneFile, h1, h2]

/-- Dispatch of one file when it is neither feature nor reST. -/
theorem processOneFile_copy (cfg : Config) (aDirList : List String)
    (f : String) (h1 : cfg.isFeatureFile f = false)
    (h2 : cfg.isRstFile f = false) :
    processOneFile cfg aDirList f
      = some (WriteEvent.copy
          (pathJoin cfg.rootPath (joinPathList (aDirList ++ [f])))
          (pathJoin cfg.outputPath
            (make_flat_name (aDirList ++ [f]) none false none))) := by
  simp [processOneFile, h1, h2]

/-- The per-file loop never emits a glossary event. -/
theorem processFiles_no_glossary (cfg : Config) (aDirList : List String)
    (files : List String) :
    ∀ e ∈ processFiles cfg aDirList files, e.isGlossary = false := by
  intro e he
  rw [processFiles, List.mem_filterMap] at he
  obtain ⟨f, -, hf⟩ := he
  by_cases h1 : cfg.isFeatureFile f = true
  · rw [processOneFile_feature cfg aDirList f h1] at hf
    rw [← Option.some.injEq _ _ |>.mp hf]
    rfl
  · rw [Bool.not_eq_true] at h1
    by_cases h2 : cfg.isRstFile f = true
    · rw [processOneFile_rst cfg aDirList f h1 h2] at hf
      exact absurd hf (by simp)
    · rw [Bool.not_eq_true] at h2
      rw [processOneFile_copy cfg aDirList f h1 h2] at hf
      rw [← Option.some.injEq _ _ |>.mp hf]
      rfl

/-- The engine loop never emits a glossary event. -/
theorem engineLoop_no_glossary (cfg : Config) (dryRun : Bool)
    (l : List WorkUnit) (s : List String) :
    ∀ e ∈ (engineLoop cfg dryRun l s).writes, e.isGlossary = false := by
  cases dryRun with
  | true =>
    rw [engineLoop_dry_writes]
    intro e he
    exact absurd he (by simp)
  | false =>
    induction l generalizing s with
    | nil => intro e he; exact absurd he (by simp [engineLoop])
    | cons u t ih =>
      intro e he
      by_cases hr : retainUnit u s = true
      · rw [engineLoop_cons_retained_writes cfg u t s hr] at he
        rcases List.mem_cons.mp he with h | h
        · rw [h]; rfl
        · rcases List.mem_append.mp h with h2 | h2
          · exact processFiles_no_glossary cfg u.dirList u.files e h2
          · exact ih (u.dir :: s) e h2
      · rw [Bool.not_eq_true] at hr
        rw [engineLoop_cons_skipped_writes cfg false u t s hr] at he
        exact ih s e he

/-- A concrete configuration used for concrete evaluations. -/
def sampleConfig : Config :=
  ⟨"output", "gherkin", some "glossary", "root", false,
    fun f => f == "a.feature", fun f => f == "note.rst"⟩

/-- A scan root with no files and no subdirectories. -/
def emptyRootUnit : WorkUnit := ⟨"r", ["r"], [], []⟩

/-- A child directory with no files and no subdirectories. -/
def emptyChildUnit : WorkUnit := ⟨"r/b", ["r", "b"], [], []⟩

/-- A child directory holding one feature file. -/
def unitA : WorkUnit := ⟨"r/a", ["r", "a"], [], ["a.feature"]⟩

/-- A scan root whose only subdirectory is `a`. -/
def unitRoot : WorkUnit := ⟨"r", ["r"], ["a"], []⟩

/-- C2 (counterexample): the claim says the scan root always receives a
top-level TOC artifact, even with no files and no retained
subdirectories; but the pruning `continue` of cli.py line 42 runs before
the last-unit check of line 54, so a run over a single fully empty root
unit (dry-run off) persists nothing at all. -/
theorem scan_root_pruned_counterexample :
    (runEngine sampleConfig false [emptyRootUnit]).writes = []
    ∧ WriteEvent.toc (topLevelTocFilename sampleConfig)
        ∉ (runEngine sampleConfig false [emptyRootUnit]).writes := by
  decide

/-- C2 (amended): processing the last WorkUnit in the sequence (the scan
root) writes a top-level TOC artifact under the configured top-level TOC
name whenever that unit has at least one file or at least one retained
subdirectory; a fully empty scan root is pruned like any other
directory. -/
theorem scan_root_toc_when_retained (cfg : Config) (u : WorkUnit)
    (rest : List WorkUnit)
    (h : retainUnit u (dirsAfter rest.reverse []) = true) :
    WriteEvent.toc (topLevelTocFilename cfg)
      ∈ (runEngine cfg false (u :: rest)).writes := by
  unfold runEngine
  rw [List.reverse_cons]
  exact engineLoop_last_toc cfg rest.reverse u [] h

/-- Witness for the amended C2 at a concrete input. -/
theorem scan_root_toc_when_retained_witness :
    WriteEvent.toc (topLevelTocFilename sampleConfig)
      ∈ (runEngine sampleConfig false [unitA]).writes :=
  scan_root_toc_when_retained sampleConfig unitA [] (by decide)

/-- C3: a unit whose file list is empty and whose subdirectory list,
filtered against `non_empty_dirs`, is empty is skipped entirely: it is
not added to `non_empty_dirs` and it contributes no write event (no TOC
and no per-file artifact). -/
theorem engine_prunes_empty_unit (cfg : Config) (dryRun : Bool)
    (u : WorkUnit) (workToDo : List WorkUnit) (s : List String)
    (hf : u.files = []) (hs : filteredSubdirs u s = []) :
    (engineLoop cfg dryRun (u :: workToDo) s).nonEmptyDirs
      = (engineLoop cfg dryRun workToDo s).nonEmptyDirs
    ∧ (engineLoop cfg dryRun (u :: workToDo) s).writes
      = (engineLoop cfg dryRun workToDo s).writes := by
  have hr : retainUnit u s = false := by
    simp [retainUnit, hf, hs]
  constructor
  · rw [engineLoop_nonEmptyDirs, engineLoop_nonEmptyDirs,
      show dirsAfter (u :: workToDo) s = dirsAfter workToDo (stepDirs u s)
        from rfl, stepDirs_skipped u s hr]
  · exact engineLoop_cons_skipped_writes cfg dryRun u workToDo s hr

/-- Witness for C3 at a concrete input. -/
theorem engine_prunes_empty_unit_witness :
    (engineLoop sampleConfig false [emptyChildUnit] []).nonEmptyDirs
      = (engineLoop sampleConfig false [] ([] : List String)).nonEmptyDirs
    ∧ (engineLoop sampleConfig false [emptyChildUnit] []).writes
      = (engineLoop sampleConfig false [] ([] : List String)).writes :=
  engine_prunes_empty_unit sampleConfig false emptyChildUnit [] [] rfl rfl

/-- C5: a dry run computes exactly the same final `non_empty_dirs` as a
real run over the same work list and glossary outcome, while persisting
no artifact at all (no TOC, no conversion, no copy, no glossary). -/
theorem dry_run_equivalence (cfg : Config) (workToDo : List WorkUnit)
    (glossary : Option String) :
    (process_args cfg true workToDo glossary).nonEmptyDirs
      = (process_args cfg false workToDo glossary).nonEmptyDirs
    ∧ (process_args cfg true workToDo glossary).writes = [] := by
  constructor
  · rw [process_args_nonEmptyDirs, process_args_nonEmptyDirs]
    show (engineLoop cfg true workToDo.reverse []).nonEmptyDirs
      = (engineLoop cfg false workToDo.reverse []).nonEmptyDirs
    rw [engineLoop_nonEmptyDirs, engineLoop_nonEmptyDirs]
  · rw [process_args_writes,
      show (runEngine cfg true workToDo).writes
        = (engineLoop cfg true workToDo.reverse []).writes from rfl,
      engineLoop_dry_writes, glossaryStep_dry_writes]
    rfl

/-- C6: a directory path is in `non_empty_dirs` exactly when some
already-processed unit carried it and that unit had at least one file or
at least one subdirectory already retained at its processing time; and
membership only grows as further units are processed (append-only).
Units are listed in processing (pop) order. -/
theorem engine_nonEmptySet_invariant (cfg : Config) (dryRun : Bool)
    (l : List WorkUnit) (d : String) :
    (d ∈ (engineLoop cfg dryRun l []).nonEmptyDirs ↔
      ∃ l₁ u l₂, l = l₁ ++ u :: l₂ ∧ u.dir = d ∧
        retainUnit u ((engineLoop cfg dryRun l₁ []).nonEmptyDirs) = true)
    ∧ ∀ (l₁ l₂ : List WorkUnit) (x : String), l = l₁ ++ l₂ →
        x ∈ (engineLoop cfg dryRun l₁ []).nonEmptyDirs →
        x ∈ (engineLoop cfg dryRun l []).nonEmptyDirs := by
  constructor
  · have h1 := mem_dirsAfter_iff d l ([] : List String)
    simp only [List.not_mem_nil, false_or] at h1
    rw [engineLoop_nonEmptyDirs]
    simp only [engineLoop_nonEmptyDirs]
    exact h1
  · intro l₁ l₂ x heq hx
    rw [engineLoop_nonEmptyDirs] at hx ⊢
    rw [heq, dirsAfter_append]
    exact mem_dirsAfter_of_mem x l₂ _ hx

/-- Witness for C6 at a concrete input. -/
theorem engine_nonEmptySet_invariant_witness :
    "r/a" ∈ (engineLoop sampleConfig false [unitA, unitRoot] []).nonEmptyDirs :=
  (engine_nonEmptySet_invariant sampleConfig false [unitA, unitRoot] "r/a").2
    [unitA] [unitRoot] "r/a" rfl (by decide)

/-- C7: an artifact is produced by the per-file loop exactly when it
comes from a feature file (converted, flat leaf name with reST
extension) or from a non-feature non-reST file (copied verbatim, flat
leaf name with no added extension); reST files produce no individual
artifact. -/
theorem per_file_dispatch (cfg : Config) (aDirList : List String)
    (files : List String) (e : WriteEvent) :
    e ∈ processFiles cfg aDirList files ↔
      ∃ f, f ∈ files ∧
        ((cfg.isFeatureFile f = true
          ∧ e = WriteEvent.feature
              (pathJoin cfg.rootPath (joinPathList (aDirList ++ [f])))
              (pathJoin cfg.outputPath
                (make_flat_name (aDirList ++ [f]) none false (some ".rst"))))
        ∨ (cfg.isFeatureFile f = false ∧ cfg.isRstFile f = false
          ∧ e = WriteEvent.copy
              (pathJoin cfg.rootPath (joinPathList (aDirList ++ [f])))
              (pathJoin cfg.outputPath
                (make_flat_name (aDirList ++ [f]) none false none)))) := by
  rw [processFiles, List.mem_filterMap]
  constructor
  · rintro ⟨f, hf, hsome⟩
    refine ⟨f, hf, ?_⟩
    by_cases h1 : cfg.isFeatureFile f = true
    · rw [processOneFile_feature cfg aDirList f h1] at hsome
      exact Or.inl ⟨h1, (Option.some.injEq _ _ |>.mp hsome).symm⟩
    · rw [Bool.not_eq_true] at h1
      by_cases h2 : cfg.isRstFile f = true
      · rw [processOneFile_rst cfg aDirList f h1 h2] at hsome
        exact absurd hsome (by simp)
      · rw [Bool.not_eq_true] at h2
        rw [processOneFile_copy cfg aDirList f h1 h2] at hsome
        exact Or.inr ⟨h1, h2, (Option.some.injEq _ _ |>.mp hsome).symm⟩
  · rintro ⟨f, hf, (⟨h1, rfl⟩ | ⟨h1, h2, rfl⟩)⟩
    · exact ⟨f, hf, processOneFile_feature cfg aDirList f h1⟩
    · exact ⟨f, hf, processOneFile_copy cfg aDirList f h1 h2⟩

/-- C8: with a glossary name configured (non-empty) and dry-run off, a
None result from the glossary builder yields no glossary artifact and an
informational message; a Some result is persisted exactly once under the
configured name with the reST extension in the output path. -/
theorem glossary_noop_and_exactly_once (cfg : Config)
    (workToDo : List WorkUnit) (name : String) (glossary : Option String)
    (hn : cfg.stepGlossaryName = some name) (hne : name ≠ "") :
    (glossary = none →
      (∀ e ∈ (process_args cfg false workToDo glossary).writes,
        e.isGlossary = false)
      ∧ "No steps to include in the glossary: no glossary generated"
          ∈ (process_args cfg false workToDo glossary).messages)
    ∧ ∀ doc, glossary = some doc →
        (process_args cfg false workToDo glossary).writes.count
          (WriteEvent.glossary (pathJoin cfg.outputPath (name ++ ".rst"))) = 1 := by
  constructor
  · rintro rfl
    have hgs : glossaryStep cfg false none
        = ([], ["No steps to include in the glossary: no glossary generated"]) := by
      simp [glossaryStep, hn, hne]
    constructor
    · intro e he
      rw [process_args_writes, hgs] at he
      rcases List.mem_append.mp he with h | h
      · exact engineLoop_no_glossary cfg false workToDo.reverse [] e h
      · exact absurd h (by simp)
    · rw [process_args_messages, hgs]
      simp
  · rintro doc rfl
    have hgs : glossaryStep cfg false (some doc)
        = ([WriteEvent.glossary (pathJoin cfg.outputPath (name ++ ".rst"))],
           verboseMsgs cfg.verboseFlag false
             ("Writing sphinx glossary: " ++ pathJoin cfg.outputPath (name ++ ".rst"))) := by
      simp [glossaryStep, hn, hne]
    rw [process_args_writes, hgs, List.count_append]
    have h0 : (runEngine cfg false workToDo).writes.count
        (WriteEvent.glossary (pathJoin cfg.outputPath (name ++ ".rst"))) = 0 := by
      rw [List.count_eq_zero]
      intro hmem
      have hglos := engineLoop_no_glossary cfg false workToDo.reverse [] _ hmem
      exact absurd hglos (by simp [WriteEvent.isGlossary])
    rw [h0]
    simp

/-- Witness for C8 at a concrete input. -/
theorem glossary_noop_and_exactly_once_witness :
    (process_args sampleConfig false [] (some "doc")).writes.count
      (WriteEvent.glossary (pathJoin sampleConfig.outputPath ("glossary" ++ ".rst"))) = 1 :=
  (glossary_noop_and_exactly_once sampleConfig [] "glossary" (some "doc")
    rfl (by decide)).2 "doc" rfl

/-- C9: the engine loop terminates on every finite work list (it is a
structural recursion) and pops each unit exactly once: the trace of
popped units is exactly the input list in pop (reversed) order, so every
unit occurs in the trace exactly as often as in the input. -/
theorem engine_exactly_once (cfg : Config) (dryRun : Bool)
    (workToDo : List WorkUnit) :
    (runEngine cfg dryRun workToDo).trace = workToDo.reverse
    ∧ ∀ u, (runEngine cfg dryRun workToDo).trace.count u = workToDo.count u := by
  have h : (runEngine cfg dryRun workToDo).trace = workToDo.reverse :=
    engineLoop_trace cfg dryRun workToDo.reverse []
  refine ⟨h, fun u => ?_⟩
  rw [h, List.count_reverse]
